import Mathlib

/-!
Shallow embedding of the polybft stake-manager core
(`consensus/polybft/state_store_stake.go`): the validator ledger
(`validatorStakeMap`), its mutation operations (`addStake`, `removeStake`),
the per-block update (`updateWithReceipts`, `PostBlock`, `PostEpoch`) and
the epoch-boundary selection (`getSorted`, `UpdateValidatorSet`).

Go machine types are embedded as follows: `types.Address` (a byte array
compared with `bytes.Compare`) becomes a list of naturals compared
lexicographically; `*big.Int` voting powers and transfer amounts become
`Int` (arbitrary precision, may go negative exactly as `big.Int` does);
a `*bls.PublicKey` becomes `Option Nat` (`none` = nil pointer); the Go
hash map `map[types.Address]*ValidatorMetadata` becomes an association
list whose list order stands for the (arbitrary) iteration order, with
address uniqueness as the map invariant; fallible operations (nil-map
dereference, root-chain calls) return `Option`.
-/

namespace StakeStore

/-- A `types.Address`: raw bytes. -/
abbrev Address := List Nat

/-- Go `bytes.Compare` on address bytes: -1, 0 or 1, lexicographic. -/
def bytesCompare : List Nat → List Nat → Int
  | [], [] => 0
  | [], _ :: _ => -1
  | _ :: _, [] => 1
  | a :: as, b :: bs => if a < b then -1 else if b < a then 1 else bytesCompare as bs

/-- `validator.ValidatorMetadata`, the fields used by the stake manager. -/
structure ValidatorMetadata where
  Address : Address
  VotingPower : Int
  BlsKey : Option Nat
  IsActive : Bool
deriving DecidableEq, Repr

/-- The `validatorStakeMap` hash map as an association list: entries keyed
by their `Address` field, list order = iteration order. -/
abbrev ValidatorStakeMap := List ValidatorMetadata

/-- The comparator passed to `sort.Slice` in `getSorted`: voting power
descending, ties broken by ascending address byte order. -/
def validatorLess (v1 v2 : ValidatorMetadata) : Bool :=
  if v2.VotingPower < v1.VotingPower then true
  else if v1.VotingPower = v2.VotingPower then bytesCompare v1.Address v2.Address < 0
  else false

/-- The non-strict order guaranteed by `sort.Slice`: `v1` may precede `v2`
iff `v2` is not strictly less than `v1`. -/
def vle (v1 v2 : ValidatorMetadata) : Prop := validatorLess v2 v1 = false

instance : DecidableRel vle := fun a b => by unfold vle; infer_instance

/-- The strict comparator as a relation. -/
def vlt (v1 v2 : ValidatorMetadata) : Prop := validatorLess v1 v2 = true

/-- Active test `v.VotingPower.Cmp(bigZero) > 0`. -/
def activeb (v : ValidatorMetadata) : Bool := decide (0 < v.VotingPower)

/-- `validatorStakeMap.getSorted`: keep entries with positive voting power,
sort them with the comparator, truncate to `maxValidatorSetSize`. -/
def getSorted (sc : ValidatorStakeMap) (maxValidatorSetSize : Nat) : List ValidatorMetadata :=
  (List.insertionSort vle (sc.filter activeb)).take maxValidatorSetSize

/-- `validatorStakeMap.addStake`: add `amount` to the entry keyed by
`address` and recompute its active flag, or create a fresh entry (nil
BLS key, power = amount, active iff amount > 0) when the key is absent. -/
def addStake : ValidatorStakeMap → Address → Int → ValidatorStakeMap
  | [], address, amount =>
      [{ Address := address, VotingPower := amount, BlsKey := none,
         IsActive := decide (0 < amount) }]
  | v :: vs, address, amount =>
      if v.Address = address then
        { v with VotingPower := v.VotingPower + amount,
                 IsActive := decide (0 < v.VotingPower + amount) } :: vs
      else v :: addStake vs address amount

/-- `validatorStakeMap.removeStake`: subtract `amount` from the entry keyed
by `address` and recompute its active flag. The Go code dereferences the
map entry without a presence check, so a missing key is a nil-pointer
panic: `none` here. -/
def removeStake : ValidatorStakeMap → Address → Int → Option ValidatorStakeMap
  | [], _, _ => none
  | v :: vs, address, amount =>
      if v.Address = address then
        some ({ v with VotingPower := v.VotingPower - amount,
                       IsActive := decide (0 < v.VotingPower - amount) } :: vs)
      else (removeStake vs address amount).map (v :: ·)

/-- Voting power recorded for an address (0 when the address is absent,
matching the claim's reading of a never-staked address). -/
def powerOf : ValidatorStakeMap → Address → Int
  | [], _ => 0
  | v :: vs, a => if v.Address = a then v.VotingPower else powerOf vs a

/-- A `contractsapi.TransferEvent` as classified by `IsStake` / `IsUnstake`
(the classification itself lives outside this file's sources): a stake
mints `value` to `recipient`, an unstake burns `value` from `sender`, and any
other transfer is only logged. -/
inductive TransferEvent where
  | stake (recipient : Address) (value : Int)
  | unstake (sender : Address) (value : Int)
  | other
deriving DecidableEq, Repr

/-- One iteration of the event loop in `updateWithReceipts`. -/
def applyEvent (m : ValidatorStakeMap) : TransferEvent → Option ValidatorStakeMap
  | .stake recipient value => some (addStake m recipient value)
  | .unstake sender value => removeStake m sender value
  | .other => some m

/-- The event loop of `updateWithReceipts`. -/
def applyEvents (m : ValidatorStakeMap) : List TransferEvent → Option ValidatorStakeMap
  | [] => some m
  | e :: es =>
      match applyEvent m e with
      | some m2 => applyEvents m2 es
      | none => none

/-- The post-loop pass of `updateWithReceipts`: for every entry with a nil
BLS key query the supernet contract (`getBlsKey`, here the oracle); on
failure the error is only logged and the nil key is kept; every entry's
active flag is recomputed from its power. -/
def resolveKeysAndFlags (oracle : Address → Option Nat) (m : ValidatorStakeMap) :
    ValidatorStakeMap :=
  m.map fun v =>
    { v with
      BlsKey := match v.BlsKey with
                | some k => some k
                | none => oracle v.Address
      IsActive := decide (0 < v.VotingPower) }

/-- `validatorSetState`: the single persisted ledger record. -/
structure ValidatorSetState where
  BlockNumber : Nat
  EpochID : Nat
  UpdatedAtBlockNumber : Nat
  Validators : ValidatorStakeMap
deriving DecidableEq, Repr

/-- `stakeManager.updateWithReceipts` given the transfer events extracted
from the block (the `eventsGetter` is an external collaborator): an empty
event list returns early; otherwise apply every event, resolve keys and
flags, and stamp `UpdatedAtBlockNumber` with the last-processed block. -/
def updateWithReceipts (oracle : Address → Option Nat) (s : ValidatorSetState)
    (events : List TransferEvent) : Option ValidatorSetState :=
  if events.isEmpty then some s
  else
    match applyEvents s.Validators events with
    | some m =>
        some { s with Validators := resolveKeysAndFlags oracle m,
                      UpdatedAtBlockNumber := s.BlockNumber }
    | none => none

/-- `stakeManager.PostBlock`: read the stored ledger (error when absent),
run `updateWithReceipts`, stamp epoch and block number, store back. The
result is the ledger record as persisted, `none` on error. -/
def PostBlock (oracle : Address → Option Nat) (stored : Option ValidatorSetState)
    (events : List TransferEvent) (blockNumber epoch : Nat) :
    Option ValidatorSetState :=
  match stored with
  | none => none
  | some s =>
      match updateWithReceipts oracle s events with
      | some s2 => some { s2 with EpochID := epoch, BlockNumber := blockNumber }
      | none => none

/-- Go map insertion keyed by the entry's address (overwrites an existing
binding). -/
def mapPut : ValidatorStakeMap → ValidatorMetadata → ValidatorStakeMap
  | [], v => [v]
  | w :: ws, v => if w.Address = v.Address then v :: ws else w :: mapPut ws v

/-- `newValidatorStakeMap`: build the map from an account list, keying each
copy by its address. -/
def newValidatorStakeMap (validatorSet : List ValidatorMetadata) : ValidatorStakeMap :=
  validatorSet.foldl mapPut []

/-- `stakeManager.PostEpoch`: a no-op unless the new epoch is 1, in which
case the genesis active set is stored as the initial full validator set. -/
def PostEpoch (stored : Option ValidatorSetState) (newEpochID : Nat)
    (validatorSet : List ValidatorMetadata) : Option ValidatorSetState :=
  if newEpochID ≠ 1 then stored
  else some { BlockNumber := 0, EpochID := 0, UpdatedAtBlockNumber := 0,
              Validators := newValidatorStakeMap validatorSet }

/-- `StakeStore.GetAllValidators`: the stored map passed through
`getSorted` with the map's own size as the bound. -/
def GetAllValidators (s : ValidatorSetState) : List ValidatorMetadata :=
  getSorted s.Validators s.Validators.length

/-- `validator.ValidatorSetDelta`: the removed bitmap is embedded as the
list of set bit indices, produced in increasing index order. -/
structure ValidatorSetDelta where
  Added : List ValidatorMetadata
  Updated : List ValidatorMetadata
  Removed : List Nat
deriving DecidableEq, Repr

/-- The `oldActiveMap` hash-map lookup built from `oldValidatorSet`
(a later duplicate binding overwrites an earlier one). -/
def lookupOld (old : List ValidatorMetadata) (a : Address) : Option ValidatorMetadata :=
  old.reverse.find? (fun v => v.Address == a)

/-- The first loop of `UpdateValidatorSet`: bit `i` of the removed bitmap
is set when the `i`-th previous validator's address is not among the new
set's addresses. -/
def buildRemoved (newAddrs : List Address) : List ValidatorMetadata → Nat → List Nat
  | [], _ => []
  | v :: vs, i =>
      if newAddrs.contains v.Address then buildRemoved newAddrs vs (i + 1)
      else i :: buildRemoved newAddrs vs (i + 1)

/-- Key resolution for a to-be-added validator: a nil BLS key is resolved
through the root-chain oracle and a lookup failure aborts (`none`). -/
def resolveNew (oracle : Address → Option Nat) (v : ValidatorMetadata) :
    Option ValidatorMetadata :=
  match v.BlsKey with
  | some _ => some v
  | none =>
      match oracle v.Address with
      | some k => some { v with BlsKey := some k }
      | none => none

/-- The second loop of `UpdateValidatorSet` over the new sorted set, in
order: a validator already in the old set is appended to `updated` when
its power changed; a new validator has its key resolved (aborting the
whole computation on failure) and is appended to `added`. -/
def collectDelta (oracle : Address → Option Nat) (old : List ValidatorMetadata) :
    List ValidatorMetadata → Option (List ValidatorMetadata × List ValidatorMetadata)
  | [] => some ([], [])
  | v :: vs =>
      match lookupOld old v.Address with
      | some ov =>
          match collectDelta oracle old vs with
          | some p => some (if ov.VotingPower = v.VotingPower then p.1 else v :: p.1, p.2)
          | none => none
      | none =>
          match resolveNew oracle v with
          | some v2 =>
              match collectDelta oracle old vs with
              | some p => some (p.1, v2 :: p.2)
              | none => none
          | none => none

/-- `stakeManager.UpdateValidatorSet`: read the stored ledger (error when
absent), select the new set with `getSorted`, compute the removed bitmap
over the previous ordered set, and collect added/updated entries. -/
def UpdateValidatorSet (oracle : Address → Option Nat)
    (stored : Option ValidatorSetState) (oldValidatorSet : List ValidatorMetadata)
    (maxValidatorSetSize : Nat) : Option ValidatorSetDelta :=
  match stored with
  | none => none
  | some s =>
      let newValidatorSet := getSorted s.Validators maxValidatorSetSize
      let newAddrs := newValidatorSet.map (fun v => v.Address)
      let removed := buildRemoved newAddrs oldValidatorSet 0
      match collectDelta oracle oldValidatorSet newValidatorSet with
      | some p => some { Added := p.2, Updated := p.1, Removed := removed }
      | none => none

/-- Concrete validator A of the spec scenario: power 10, address sorting
before B's. -/
def valA : ValidatorMetadata := { Address := [1], VotingPower := 10, BlsKey := some 1, IsActive := true }

/-- Concrete validator B of the spec scenario: power 10. -/
def valB : ValidatorMetadata := { Address := [2], VotingPower := 10, BlsKey := some 2, IsActive := true }

/-- Concrete validator C of the spec scenario: power 5. -/
def valC : ValidatorMetadata := { Address := [3], VotingPower := 5, BlsKey := some 3, IsActive := true }

/-- A zeroed (inactive) historical ledger entry. -/
def valZero : ValidatorMetadata := { Address := [9], VotingPower := 0, BlsKey := some 9, IsActive := false }

/-- Sum of the stake amounts minted to address `a` in an event sequence. -/
def stakedTo (a : Address) : List TransferEvent → Int
  | [] => 0
  | TransferEvent.stake r v :: es => (if r = a then v else 0) + stakedTo a es
  | TransferEvent.unstake _ _ :: es => stakedTo a es
  | TransferEvent.other :: es => stakedTo a es

/-- Sum of the unstake amounts burned from address `a` in an event
sequence. -/
def unstakedFrom (a : Address) : List TransferEvent → Int
  | [] => 0
  | TransferEvent.stake _ _ :: es => unstakedFrom a es
  | TransferEvent.unstake s v :: es => (if s = a then v else 0) + unstakedFrom a es
  | TransferEvent.other :: es => unstakedFrom a es

/-- The ledger invariant of the data model: every record's active flag
agrees with its stored voting power. -/
def ActiveInvariant (m : ValidatorStakeMap) : Prop :=
  ∀ v ∈ m, v.IsActive = decide (0 < v.VotingPower)

instance (m : ValidatorStakeMap) : Decidable (ActiveInvariant m) := by
  unfold ActiveInvariant; infer_instance

/-- An always-succeeding root-chain key oracle, for concrete witnesses. -/
def oracleW : Address → Option Nat := fun _ => some 0

/-- A concrete event sequence for the conservation witness: stake 5 to A,
unstake 2 from A, first stake 4 to a fresh address. -/
def wEvs : List TransferEvent :=
  [TransferEvent.stake [1] 5, TransferEvent.unstake [1] 2, TransferEvent.stake [7] 4]

/-- The ledger state obtained by running `updateWithReceipts` on `[valA]`
with `wEvs`, for the conservation witness. -/
def wS : ValidatorSetState :=
  (updateWithReceipts oracleW ⟨0, 0, 0, [valA]⟩ wEvs).getD ⟨0, 0, 0, []⟩

/-- A staked validator with an unresolved (nil) BLS key. -/
def vNoKey : ValidatorMetadata :=
  { Address := [5], VotingPower := 3, BlsKey := none, IsActive := true }

/-- The delta produced by selecting from ledger `[valA]` against previous
set `[valB]`, for the removed-bitmap witness. -/
def wDelta : ValidatorSetDelta :=
  (UpdateValidatorSet oracleW (some ⟨0, 0, 0, [valA]⟩) [valB] 1).getD ⟨[], [], []⟩

/-- The map obtained by applying one stake event to `[vNoKey]`, for the
soft-failure witness. -/
def wM7 : ValidatorStakeMap :=
  (applyEvents [vNoKey] [TransferEvent.stake [5] 1]).getD []

/-- An always-failing root-chain key oracle, for concrete witnesses. -/
def oracleFail : Address → Option Nat := fun _ => none

end StakeStore

namespace CheckpointStore

/-- Modelled from the spec: the checkpoint manager's exit-event record as
stored by `PostBlock` (the implementation is absent from the sources here;
only its test is present). Each event carries its id, the epoch id and the
block number it is attributed to. -/
structure ExitEvent where
  ID : Nat
  EpochNumber : Nat
  BlockNumber : Nat
deriving DecidableEq, Repr

/-- Modelled from the spec: the attribution rule of the exit-event store —
an event produced in an epoch-ending block is filed under the next epoch
id and the first block of the next epoch (the ending block's successor);
any other event keeps its originating epoch and block. -/
def attributeExitEvent (epochID blockNumber : Nat) (isEpochEndingBlock : Bool) :
    Nat × Nat :=
  if isEpochEndingBlock then (epochID + 1, blockNumber + 1) else (epochID, blockNumber)

/-- Modelled from the spec: storing the exit events decoded from one
block's receipts, every one attributed by `attributeExitEvent`. -/
def storeBlockExitEvents (ids : List Nat) (epochID blockNumber : Nat)
    (isEpochEndingBlock : Bool) : List ExitEvent :=
  let target := attributeExitEvent epochID blockNumber isEpochEndingBlock
  ids.map fun i => { ID := i, EpochNumber := target.1, BlockNumber := target.2 }

end CheckpointStore

namespace StakeStore

theorem bytesCompare_swap : ∀ a b : List Nat, bytesCompare b a = -bytesCompare a b
  | [], [] => by simp [bytesCompare]
  | [], _ :: _ => by simp [bytesCompare]
  | _ :: _, [] => by simp [bytesCompare]
  | a :: as, b :: bs => by
      simp only [bytesCompare]
      rcases lt_trichotomy a b with h | h | h
      · simp [h, Nat.lt_asymm h]
      · subst h
        simp only [lt_irrefl, if_false]
        exact bytesCompare_swap as bs
      · simp [h, Nat.lt_asymm h]

theorem bytesCompare_eq_zero : ∀ a b : List Nat, bytesCompare a b = 0 ↔ a = b
  | [], [] => by simp [bytesCompare]
  | [], _ :: _ => by simp [bytesCompare]
  | _ :: _, [] => by simp [bytesCompare]
  | a :: as, b :: bs => by
      simp only [bytesCompare]
      rcases lt_trichotomy a b with h | h | h
      · rw [if_pos h]
        simp [Nat.ne_of_lt h]
      · subst h
        rw [if_neg (lt_irrefl a), if_neg (lt_irrefl a)]
        simp [bytesCompare_eq_zero as bs]
      · rw [if_neg (Nat.lt_asymm h), if_pos h]
        simp [(Nat.ne_of_lt h).symm]

theorem bytesCompare_cons_neg {a b : Nat} {as bs : List Nat} :
    bytesCompare (a :: as) (b :: bs) < 0 ↔ a < b ∨ (a = b ∧ bytesCompare as bs < 0) := by
  simp only [bytesCompare]
  rcases lt_trichotomy a b with h | h | h
  · rw [if_pos h]
    simp [h]
  · subst h
    rw [if_neg (lt_irrefl a), if_neg (lt_irrefl a)]
    simp
  · rw [if_neg (Nat.lt_asymm h), if_pos h]
    simp [Nat.lt_asymm h, (Nat.ne_of_lt h).symm]

theorem bytesCompare_trans_neg :
    ∀ a b c : List Nat, bytesCompare a b < 0 → bytesCompare b c < 0 →
      bytesCompare a c < 0
  | [], [], _, h1, _ => by simp [bytesCompare] at h1
  | [], _ :: _, [], _, h2 => by simp [bytesCompare] at h2
  | [], _ :: _, _ :: _, _, _ => by simp [bytesCompare]
  | _ :: _, [], _, h1, _ => by simp [bytesCompare] at h1
  | _ :: _, _ :: _, [], _, h2 => by simp [bytesCompare] at h2
  | a :: as, b :: bs, c :: cs, h1, h2 => by
      rw [bytesCompare_cons_neg] at h1 h2 ⊢
      rcases h1 with h1 | ⟨rfl, h1⟩
      · rcases h2 with h2 | ⟨rfl, _⟩
        · exact Or.inl (Nat.lt_trans h1 h2)
        · exact Or.inl h1
      · rcases h2 with h2 | ⟨rfl, h2⟩
        · exact Or.inl h2
        · exact Or.inr ⟨rfl, bytesCompare_trans_neg as bs cs h1 h2⟩

theorem validatorLess_eq_true {v1 v2 : ValidatorMetadata} :
    validatorLess v1 v2 = true ↔
      (v2.VotingPower < v1.VotingPower ∨
        (v1.VotingPower = v2.VotingPower ∧ bytesCompare v1.Address v2.Address < 0)) := by
  unfold validatorLess
  split_ifs with h1 h2
  · simp [h1]
  · simp [h1, h2]
  · simp [h1, h2]

theorem validatorLess_eq_false {v1 v2 : ValidatorMetadata} :
    validatorLess v1 v2 = false ↔
      ¬(v2.VotingPower < v1.VotingPower ∨
        (v1.VotingPower = v2.VotingPower ∧ bytesCompare v1.Address v2.Address < 0)) := by
  rw [← validatorLess_eq_true]
  cases validatorLess v1 v2 <;> simp

theorem vle_iff {v1 v2 : ValidatorMetadata} :
    vle v1 v2 ↔
      ¬(v1.VotingPower < v2.VotingPower ∨
        (v2.VotingPower = v1.VotingPower ∧ bytesCompare v2.Address v1.Address < 0)) :=
  validatorLess_eq_false

theorem vlt_iff {v1 v2 : ValidatorMetadata} :
    vlt v1 v2 ↔
      (v2.VotingPower < v1.VotingPower ∨
        (v1.VotingPower = v2.VotingPower ∧ bytesCompare v1.Address v2.Address < 0)) :=
  validatorLess_eq_true

theorem vlt_asymm {v1 v2 : ValidatorMetadata} (h : vlt v1 v2) : ¬ vlt v2 v1 := by
  rw [vlt_iff] at h ⊢
  intro hc
  rcases h with h | ⟨he, h⟩
  · rcases hc with hc | ⟨hce, _⟩
    · exact absurd hc (lt_asymm h)
    · exact absurd hce (ne_of_lt h)
  · rcases hc with hc | ⟨_, hc⟩
    · exact absurd he (ne_of_gt hc).symm
    · rw [bytesCompare_swap] at hc
      omega

instance : IsTotal ValidatorMetadata vle := by
  constructor
  intro a b
  cases hb : validatorLess a b with
  | false => exact Or.inr hb
  | true =>
      left
      unfold vle
      cases hc : validatorLess b a with
      | false => rfl
      | true => exact absurd hc (vlt_asymm (show vlt a b from hb))

instance : IsTrans ValidatorMetadata vle := by
  constructor
  intro a b c hab hbc
  rw [vle_iff] at hab hbc ⊢
  push_neg at hab hbc ⊢
  obtain ⟨hab1, hab2⟩ := hab
  obtain ⟨hbc1, hbc2⟩ := hbc
  refine ⟨by omega, ?_⟩
  intro hca
  have hba : b.VotingPower = a.VotingPower := by omega
  have hcb : c.VotingPower = b.VotingPower := by omega
  have h1 := hab2 hba
  have h2 := hbc2 hcb
  by_contra hlt
  push_neg at hlt
  rcases eq_or_lt_of_le h2 with h2e | h2l
  · rw [eq_comm, bytesCompare_eq_zero] at h2e
    rw [h2e] at hlt
    omega
  · rcases eq_or_lt_of_le h1 with h1e | h1l
    · rw [eq_comm, bytesCompare_eq_zero] at h1e
      rw [← h1e] at hlt
      omega
    · have hab3 : bytesCompare a.Address b.Address < 0 := by
        rw [bytesCompare_swap a.Address b.Address] at h1l
        omega
      have hbc3 : bytesCompare b.Address c.Address < 0 := by
        rw [bytesCompare_swap b.Address c.Address] at h2l
        omega
      have htr := bytesCompare_trans_neg a.Address b.Address c.Address hab3 hbc3
      rw [bytesCompare_swap a.Address c.Address] at hlt
      omega

instance : IsAntisymm ValidatorMetadata vlt :=
  ⟨fun _ _ hab hba => absurd hba (vlt_asymm hab)⟩

/-- On entries with distinct addresses, the nonstrict sort order is strict. -/
theorem vlt_of_vle_of_addr_ne {v1 v2 : ValidatorMetadata} (h : vle v1 v2)
    (hne : v1.Address ≠ v2.Address) : vlt v1 v2 := by
  rw [vle_iff] at h
  push_neg at h
  obtain ⟨h1, h2⟩ := h
  rw [vlt_iff]
  rcases lt_or_eq_of_le h1 with hp | hp
  · exact Or.inl hp
  · refine Or.inr ⟨hp.symm, ?_⟩
    have h3 := h2 hp
    rcases lt_trichotomy (bytesCompare v1.Address v2.Address) 0 with h | h | h
    · exact h
    · rw [bytesCompare_eq_zero] at h
      exact absurd h hne
    · rw [bytesCompare_swap v1.Address v2.Address] at h3
      omega

/-- A nonstrictly sorted list with pairwise-distinct addresses is strictly
sorted. -/
theorem sorted_vlt_of_vle {l : List ValidatorMetadata}
    (hs : l.Sorted vle) (hn : (l.map ValidatorMetadata.Address).Nodup) :
    l.Sorted vlt := by
  have hne : l.Pairwise (fun a b : ValidatorMetadata => a.Address ≠ b.Address) :=
    List.pairwise_map.mp hn
  exact (hs.and hne).imp fun h => vlt_of_vle_of_addr_ne h.1 h.2

/-- Sorting is unique on permuted lists with distinct addresses: the
comparator is a strict total order on such entries. -/
theorem sorted_unique {l₁ l₂ : List ValidatorMetadata} (hp : l₁.Perm l₂)
    (hn : (l₁.map ValidatorMetadata.Address).Nodup)
    (hs₁ : l₁.Sorted vle) (hs₂ : l₂.Sorted vle) : l₁ = l₂ := by
  have hn₂ : (l₂.map ValidatorMetadata.Address).Nodup :=
    ((hp.map ValidatorMetadata.Address).nodup_iff).mp hn
  exact List.eq_of_perm_of_sorted hp (sorted_vlt_of_vle hs₁ hn) (sorted_vlt_of_vle hs₂ hn₂)

/-- `getSorted` is a function of the map contents alone: the iteration
order of the underlying hash map cannot influence it. -/
theorem getSorted_perm_eq {m₁ m₂ : ValidatorStakeMap} (hp : m₁.Perm m₂)
    (hn : (m₁.map ValidatorMetadata.Address).Nodup) (k : Nat) :
    getSorted m₁ k = getSorted m₂ k := by
  unfold getSorted
  congr 1
  apply sorted_unique
  · exact (List.perm_insertionSort vle _).trans
      ((hp.filter activeb).trans (List.perm_insertionSort vle _).symm)
  · have h1 : ((m₁.filter activeb).map ValidatorMetadata.Address).Nodup :=
      List.Nodup.sublist ((List.filter_sublist _).map ValidatorMetadata.Address) hn
    exact (((List.perm_insertionSort vle (m₁.filter activeb)).map
      ValidatorMetadata.Address).nodup_iff).mpr h1
  · exact List.sorted_insertionSort vle _
  · exact List.sorted_insertionSort vle _

theorem mem_of_mem_getSorted {m : ValidatorStakeMap} {k : Nat}
    {v : ValidatorMetadata} (h : v ∈ getSorted m k) :
    0 < v.VotingPower ∧ v ∈ m := by
  have h2 : v ∈ m.filter activeb := by
    have := (List.take_sublist k _).subset h
    exact (List.perm_insertionSort vle (m.filter activeb)).subset this
  rw [List.mem_filter] at h2
  refine ⟨?_, h2.1⟩
  have := h2.2
  unfold activeb at this
  exact of_decide_eq_true this

theorem getSorted_sorted (m : ValidatorStakeMap) (k : Nat) :
    (getSorted m k).Sorted vle :=
  (List.sorted_insertionSort vle (m.filter activeb)).sublist (List.take_sublist k _)

theorem getSorted_length (m : ValidatorStakeMap) (k : Nat) :
    (getSorted m k).length = min k (m.filter activeb).length := by
  unfold getSorted
  rw [List.length_take, (List.perm_insertionSort vle (m.filter activeb)).length_eq]

theorem getSorted_perm_filter {m : ValidatorStakeMap} {k : Nat}
    (hk : (m.filter activeb).length ≤ k) : (getSorted m k).Perm (m.filter activeb) := by
  unfold getSorted
  rw [List.take_of_length_le]
  · exact List.perm_insertionSort vle _
  · rw [(List.perm_insertionSort vle (m.filter activeb)).length_eq]
    exact hk

/-- C1: `getSorted` keeps exactly the entries with voting power > 0,
orders them descending by power with ties broken by ascending address
bytes (the `vle` order), truncates to the first `maxValidatorSetSize`
entries, and on the spec scenario {A:10, B:10, C:5} with max size 2
returns [A, B] whatever the insertion order. -/
theorem getSorted_selection_spec :
    (∀ (m : ValidatorStakeMap) (k : Nat),
      (∀ v ∈ getSorted m k, 0 < v.VotingPower ∧ v ∈ m) ∧
      (getSorted m k).Sorted vle ∧
      (getSorted m k).length = min k (m.filter activeb).length ∧
      ((m.filter activeb).length ≤ k → (getSorted m k).Perm (m.filter activeb))) ∧
    getSorted [valA, valB, valC] 2 = [valA, valB] ∧
    getSorted [valB, valC, valA] 2 = [valA, valB] ∧
    getSorted [valC, valB, valA] 2 = [valA, valB] := by
  refine ⟨fun m k => ⟨fun v hv => ?_, getSorted_sorted m k, getSorted_length m k,
    fun hk => getSorted_perm_filter hk⟩, by decide, by decide, by decide⟩
  have h := mem_of_mem_getSorted hv
  exact ⟨h.1, h.2⟩

/-- Witness for C1: the conditional conjunct applied at a concrete map
where all three entries fit the bound. -/
theorem getSorted_selection_spec_witness :
    (getSorted [valA, valB, valC] 3).Perm ([valA, valB, valC].filter activeb) :=
  (getSorted_selection_spec.1 [valA, valB, valC] 3).2.2.2 (by decide)

/-- C3: `UpdateValidatorSet` is deterministic in the ledger contents:
two stored ledgers holding the same address→record bindings in different
hash-map iteration orders yield identical deltas (same added, updated and
removed contents in the same order), because selection imposes the
explicit total order. -/
theorem UpdateValidatorSet_deterministic
    (oracle : Address → Option Nat) (m₁ m₂ : ValidatorStakeMap)
    (old : List ValidatorMetadata) (k bn ep ub : Nat)
    (hp : m₁.Perm m₂) (hn : (m₁.map ValidatorMetadata.Address).Nodup) :
    UpdateValidatorSet oracle (some ⟨bn, ep, ub, m₁⟩) old k =
      UpdateValidatorSet oracle (some ⟨bn, ep, ub, m₂⟩) old k := by
  simp only [UpdateValidatorSet, getSorted_perm_eq hp hn k]

/-- Witness for C3: the two insertion orders of {A, B, C} produce the
same delta against a previous set [A, C]. -/
theorem UpdateValidatorSet_deterministic_witness :
    UpdateValidatorSet oracleW (some ⟨0, 0, 0, [valA, valB, valC]⟩) [valA, valC] 2 =
      UpdateValidatorSet oracleW (some ⟨0, 0, 0, [valC, valA, valB]⟩) [valA, valC] 2 :=
  UpdateValidatorSet_deterministic oracleW [valA, valB, valC] [valC, valA, valB]
    [valA, valC] 2 0 0 0 (by decide) (by decide)

/-- C10: `GetAllValidators` returns only the stored entries whose voting
power is strictly positive, in the descending-power ascending-address
order; a zeroed historical entry stays in the stored map but is omitted
from the returned set. -/
theorem GetAllValidators_only_active :
    (∀ (s : ValidatorSetState),
      (∀ v, v ∈ GetAllValidators s ↔ (v ∈ s.Validators ∧ 0 < v.VotingPower)) ∧
      (GetAllValidators s).Sorted vle) ∧
    (valZero ∈ ([valA, valZero] : ValidatorStakeMap) ∧
      GetAllValidators ⟨0, 0, 0, [valA, valZero]⟩ = [valA]) := by
  refine ⟨fun s => ⟨fun v => ⟨fun hv => ?_, fun hv => ?_⟩,
    getSorted_sorted s.Validators s.Validators.length⟩, by decide, by decide⟩
  · have h := mem_of_mem_getSorted hv
    exact ⟨h.2, h.1⟩
  · have hk : (s.Validators.filter activeb).length ≤ s.Validators.length :=
      List.length_filter_le activeb s.Validators
    refine (getSorted_perm_filter hk).symm.subset ?_
    rw [List.mem_filter]
    refine ⟨hv.1, ?_⟩
    unfold activeb
    exact decide_eq_true hv.2

theorem powerOf_addStake : ∀ (m : ValidatorStakeMap) (b : Address) (x : Int)
    (a : Address), powerOf (addStake m b x) a =
      if a = b then powerOf m a + x else powerOf m a
  | [], b, x, a => by
      by_cases hab : a = b
      · subst hab
        simp [addStake, powerOf]
      · have hba : ¬b = a := fun h => hab h.symm
        simp [addStake, powerOf, hab, hba]
  | v :: vs, b, x, a => by
      by_cases hvb : v.Address = b
      · by_cases hva : v.Address = a
        · have hab : a = b := by rw [← hva, hvb]
          simp [addStake, powerOf, hvb, hva, hab]
        · have hab : ¬a = b := fun h => hva (by rw [hvb, h])
          have hba : ¬b = a := fun h => hab h.symm
          simp [addStake, powerOf, hvb, hva, hab, hba]
      · by_cases hva : v.Address = a
        · have hab : ¬a = b := fun h => hvb (by rw [hva, h])
          simp [addStake, powerOf, hvb, hva, hab]
        · simp [addStake, powerOf, hvb, hva, powerOf_addStake vs b x a]

theorem powerOf_removeStake : ∀ (m : ValidatorStakeMap) (b : Address) (x : Int)
    (m' : ValidatorStakeMap) (a : Address), removeStake m b x = some m' →
      powerOf m' a = if a = b then powerOf m a - x else powerOf m a
  | [], _, _, _, _, h => by simp [removeStake] at h
  | v :: vs, b, x, m', a, h => by
      by_cases hvb : v.Address = b
      · rw [removeStake, if_pos hvb] at h
        cases h
        by_cases hva : v.Address = a
        · have hab : a = b := hva ▸ hvb
          simp [powerOf, hva, hab]
        · have hab : a ≠ b := fun h2 => hva (h2 ▸ hvb)
          simp [powerOf, hva, hab]
      · rw [removeStake, if_neg hvb] at h
        cases htl : removeStake vs b x with
        | none => rw [htl] at h; simp at h
        | some m₂ =>
            rw [htl] at h
            simp only [Option.map_some'] at h
            cases h
            have ih := powerOf_removeStake vs b x m₂ a htl
            by_cases hva : v.Address = a
            · have hab : a ≠ b := fun h2 => hvb (h2 ▸ hva)
              simp [powerOf, hva, hab]
            · simp [powerOf, hva, ih]

theorem powerOf_map_preserving (f : ValidatorMetadata → ValidatorMetadata)
    (hf : ∀ v, (f v).Address = v.Address ∧ (f v).VotingPower = v.VotingPower) :
    ∀ (m : ValidatorStakeMap) (a : Address), powerOf (m.map f) a = powerOf m a
  | [], _ => rfl
  | v :: vs, a => by
      rw [List.map_cons]
      simp only [powerOf, (hf v).1, (hf v).2]
      by_cases hva : v.Address = a
      · simp [hva]
      · simp [hva, powerOf_map_preserving f hf vs a]

theorem powerOf_resolveKeysAndFlags (oracle : Address → Option Nat)
    (m : ValidatorStakeMap) (a : Address) :
    powerOf (resolveKeysAndFlags oracle m) a = powerOf m a := by
  unfold resolveKeysAndFlags
  apply powerOf_map_preserving
  intro v
  exact ⟨rfl, rfl⟩

theorem applyEvents_conservation : ∀ (evs : List TransferEvent)
    (m m' : ValidatorStakeMap) (a : Address), applyEvents m evs = some m' →
      powerOf m' a = powerOf m a + stakedTo a evs - unstakedFrom a evs
  | [], m, m', a, h => by
      cases h
      simp [stakedTo, unstakedFrom]
  | TransferEvent.stake r v :: es, m, m', a, h => by
      rw [applyEvents, applyEvent] at h
      have ih := applyEvents_conservation es (addStake m r v) m' a h
      rw [ih, powerOf_addStake m r v a]
      simp only [stakedTo, unstakedFrom]
      by_cases hra : r = a
      · subst hra
        rw [if_pos rfl, if_pos rfl]
        ring
      · have har : ¬a = r := fun h2 => hra h2.symm
        rw [if_neg har, if_neg hra]
        ring
  | TransferEvent.unstake sd v :: es, m, m', a, h => by
      rw [applyEvents, applyEvent] at h
      cases hr : removeStake m sd v with
      | none => rw [hr] at h; simp at h
      | some m₂ =>
          rw [hr] at h
          have ih := applyEvents_conservation es m₂ m' a h
          rw [ih, powerOf_removeStake m sd v m₂ a hr]
          simp only [stakedTo, unstakedFrom]
          by_cases hsa : sd = a
          · subst hsa
            rw [if_pos rfl, if_pos rfl]
            ring
          · have has : ¬a = sd := fun h2 => hsa h2.symm
            rw [if_neg has, if_neg hsa]
            ring
  | TransferEvent.other :: es, m, m', a, h => by
      rw [applyEvents, applyEvent] at h
      have ih := applyEvents_conservation es m m' a h
      rw [ih]
      simp [stakedTo, unstakedFrom]

/-- C4: conservation — for any initial ledger and transfer-event sequence
applied by `updateWithReceipts`, each address's final voting power equals
its initial power plus the stakes minted to it minus the unstakes burned
from it. -/
theorem updateWithReceipts_conservation (oracle : Address → Option Nat)
    (s : ValidatorSetState) (evs : List TransferEvent) (s' : ValidatorSetState)
    (a : Address) (h : updateWithReceipts oracle s evs = some s') :
    powerOf s'.Validators a =
      powerOf s.Validators a + stakedTo a evs - unstakedFrom a evs := by
  unfold updateWithReceipts at h
  by_cases he : evs.isEmpty
  · rw [if_pos he] at h
    cases h
    rw [List.isEmpty_iff] at he
    subst he
    simp [stakedTo, unstakedFrom]
  · rw [if_neg he] at h
    cases ha : applyEvents s.Validators evs with
    | none => rw [ha] at h; simp at h
    | some m =>
        rw [ha] at h
        cases h
        simp only
        rw [powerOf_resolveKeysAndFlags oracle m a]
        exact applyEvents_conservation evs s.Validators m a ha

/-- Witness for C4: running stake 5, unstake 2 and a first stake of 4 over
the one-entry ledger [A]. -/
theorem updateWithReceipts_conservation_witness :
    powerOf wS.Validators [1] =
      powerOf ([valA] : ValidatorStakeMap) [1] + stakedTo [1] wEvs - unstakedFrom [1] wEvs :=
  updateWithReceipts_conservation oracleW ⟨0, 0, 0, [valA]⟩ wEvs wS [1] (by decide)

theorem addStake_invariant : ∀ (m : ValidatorStakeMap) (a : Address) (x : Int),
    ActiveInvariant m → ActiveInvariant (addStake m a x)
  | [], a, x, _ => by
      intro v hv
      simp [addStake] at hv
      subst hv
      rfl
  | w :: ws, a, x, h => by
      intro v hv
      by_cases hwa : w.Address = a
      · rw [addStake, if_pos hwa] at hv
        rcases List.mem_cons.mp hv with rfl | hv
        · rfl
        · exact h v (List.mem_cons_of_mem w hv)
      · rw [addStake, if_neg hwa] at hv
        rcases List.mem_cons.mp hv with rfl | hv
        · exact h _ (List.mem_cons_self _ _)
        · exact addStake_invariant ws a x (fun u hu => h u (List.mem_cons_of_mem w hu)) v hv

theorem removeStake_invariant : ∀ (m m' : ValidatorStakeMap) (a : Address) (x : Int),
    removeStake m a x = some m' → ActiveInvariant m → ActiveInvariant m'
  | [], _, _, _, h, _ => by simp [removeStake] at h
  | w :: ws, m', a, x, h, hinv => by
      by_cases hwa : w.Address = a
      · rw [removeStake, if_pos hwa] at h
        cases h
        intro v hv
        rcases List.mem_cons.mp hv with rfl | hv
        · rfl
        · exact hinv v (List.mem_cons_of_mem w hv)
      · rw [removeStake, if_neg hwa] at h
        cases htl : removeStake ws a x with
        | none => rw [htl] at h; simp at h
        | some m₂ =>
            rw [htl] at h
            simp only [Option.map_some'] at h
            cases h
            intro v hv
            rcases List.mem_cons.mp hv with rfl | hv
            · exact hinv _ (List.mem_cons_self _ _)
            · exact removeStake_invariant ws m₂ a x htl
                (fun u hu => hinv u (List.mem_cons_of_mem w hu)) v hv

theorem resolveKeysAndFlags_invariant (oracle : Address → Option Nat)
    (m : ValidatorStakeMap) : ActiveInvariant (resolveKeysAndFlags oracle m) := by
  intro v hv
  unfold resolveKeysAndFlags at hv
  rcases List.mem_map.mp hv with ⟨w, _, rfl⟩
  rfl

theorem mem_mapPut : ∀ (m : ValidatorStakeMap) (w v : ValidatorMetadata),
    v ∈ mapPut m w → v = w ∨ v ∈ m
  | [], w, v, h => by
      simp [mapPut] at h
      exact Or.inl h
  | u :: us, w, v, h => by
      by_cases huw : u.Address = w.Address
      · rw [mapPut, if_pos huw] at h
        rcases List.mem_cons.mp h with rfl | h
        · exact Or.inl rfl
        · exact Or.inr (List.mem_cons_of_mem u h)
      · rw [mapPut, if_neg huw] at h
        rcases List.mem_cons.mp h with rfl | h
        · exact Or.inr (List.mem_cons_self _ _)
        · rcases mem_mapPut us w v h with h | h
          · exact Or.inl h
          · exact Or.inr (List.mem_cons_of_mem u h)

theorem mem_foldl_mapPut : ∀ (l : List ValidatorMetadata) (init : ValidatorStakeMap)
    (v : ValidatorMetadata), v ∈ l.foldl mapPut init → v ∈ init ∨ v ∈ l
  | [], _, v, h => Or.inl h
  | w :: ws, init, v, h => by
      rw [List.foldl_cons] at h
      rcases mem_foldl_mapPut ws (mapPut init w) v h with h | h
      · rcases mem_mapPut init w v h with rfl | h
        · exact Or.inr (List.mem_cons_self _ _)
        · exact Or.inl h
      · exact Or.inr (List.mem_cons_of_mem w h)

/-- C5: the active flag is never inconsistent with the stored power —
`addStake` and `removeStake` preserve the invariant, the per-entry
recomputation establishes it outright, `updateWithReceipts` preserves it,
and `PostEpoch` initialization inherits it from a consistent genesis set. -/
theorem active_flag_invariant :
    (∀ (m : ValidatorStakeMap) (a : Address) (x : Int),
      ActiveInvariant m → ActiveInvariant (addStake m a x)) ∧
    (∀ (m m' : ValidatorStakeMap) (a : Address) (x : Int),
      removeStake m a x = some m' → ActiveInvariant m → ActiveInvariant m') ∧
    (∀ (oracle : Address → Option Nat) (m : ValidatorStakeMap),
      ActiveInvariant (resolveKeysAndFlags oracle m)) ∧
    (∀ (oracle : Address → Option Nat) (s : ValidatorSetState)
      (evs : List TransferEvent) (s' : ValidatorSetState),
      updateWithReceipts oracle s evs = some s' →
      ActiveInvariant s.Validators → ActiveInvariant s'.Validators) ∧
    (∀ (stored : Option ValidatorSetState) (accounts : List ValidatorMetadata)
      (s' : ValidatorSetState), PostEpoch stored 1 accounts = some s' →
      ActiveInvariant accounts → ActiveInvariant s'.Validators) := by
  refine ⟨addStake_invariant, fun m m' a x h => removeStake_invariant m m' a x h,
    resolveKeysAndFlags_invariant, ?_, ?_⟩
  · intro oracle s evs s' h hinv
    unfold updateWithReceipts at h
    by_cases he : evs.isEmpty
    · rw [if_pos he] at h
      cases h
      exact hinv
    · rw [if_neg he] at h
      cases ha : applyEvents s.Validators evs with
      | none => rw [ha] at h; simp at h
      | some m =>
          rw [ha] at h
          cases h
          exact resolveKeysAndFlags_invariant oracle m
  · intro stored accounts s' h hinv
    unfold PostEpoch at h
    simp only [ne_eq, not_true_eq_false, if_false] at h
    cases h
    intro v hv
    rcases mem_foldl_mapPut accounts [] v hv with h | h
    · simp at h
    · exact hinv v h

/-- Witness for C5: the invariant survives a concrete stake, an exhausting
unstake, the recomputation pass, a nonempty block update and epoch-1
initialization. -/
theorem active_flag_invariant_witness :
    ActiveInvariant (addStake [valA] [2] 3) :=
  active_flag_invariant.1 [valA] [2] 3 (by decide)

theorem removeStake_entry : ∀ (m : ValidatorStakeMap) (ad : Address) (x : Int),
    (∃ v ∈ m, v.Address = ad) →
    ∃ m', removeStake m ad x = some m' ∧
      ∃ w ∈ m', w.Address = ad ∧ w.VotingPower = powerOf m ad - x ∧
        w.IsActive = decide (0 < powerOf m ad - x)
  | [], _, _, h => by simp at h
  | v :: vs, ad, x, h => by
      by_cases hva : v.Address = ad
      · refine ⟨_, by rw [removeStake, if_pos hva], ?_⟩
        refine ⟨_, List.mem_cons_self _ _, hva, ?_, ?_⟩ <;>
          simp [powerOf, hva]
      · obtain ⟨u, hu, hua⟩ := h
        rcases List.mem_cons.mp hu with rfl | hu
        · exact absurd hua hva
        · obtain ⟨m₂, hm₂, w, hw, hwa, hwp, hwf⟩ :=
            removeStake_entry vs ad x ⟨u, hu, hua⟩
          refine ⟨v :: m₂, ?_, w, List.mem_cons_of_mem v hw, hwa, ?_, ?_⟩
          · rw [removeStake, if_neg hva, hm₂]
            rfl
          · rw [hwp]
            simp [powerOf, hva]
          · rw [hwf]
            simp [powerOf, hva]

/-- C8: `removeStake` subtracts with exact integer arithmetic and no
guard — when the unstake amount exceeds the recorded power `p`, the stored
power becomes the negative `p - x`, the active flag becomes false, and no
error occurs. -/
theorem removeStake_no_guard (m : ValidatorStakeMap) (ad : Address) (p x : Int)
    (hmem : ∃ v ∈ m, v.Address = ad) (hpow : powerOf m ad = p) (hgt : p < x) :
    ∃ m', removeStake m ad x = some m' ∧ powerOf m' ad = p - x ∧ p - x < 0 ∧
      ∃ w ∈ m', w.Address = ad ∧ w.VotingPower = p - x ∧ w.IsActive = false := by
  obtain ⟨m', hm', w, hw, hwa, hwp, hwf⟩ := removeStake_entry m ad x hmem
  refine ⟨m', hm', ?_, by omega, w, hw, hwa, ?_, ?_⟩
  · rw [powerOf_removeStake m ad x m' ad hm', if_pos rfl, hpow]
  · rw [hwp, hpow]
  · rw [hwf, hpow]
    exact decide_eq_false (by omega)

/-- Witness for C8: unstaking 11 from A's recorded 10 drives the power to
-1 and deactivates the entry. -/
theorem removeStake_no_guard_witness :
    ∃ m', removeStake [valA] [1] 11 = some m' ∧
      powerOf m' [1] = 10 - 11 ∧ (10 : Int) - 11 < 0 ∧
      ∃ w ∈ m', w.Address = [1] ∧ w.VotingPower = 10 - 11 ∧ w.IsActive = false :=
  removeStake_no_guard [valA] [1] 10 11 ⟨valA, by decide, by decide⟩
    (by decide) (by decide)

theorem mem_buildRemoved_iff (newAddrs : List Address) :
    ∀ (vs : List ValidatorMetadata) (i0 j : Nat),
      j ∈ buildRemoved newAddrs vs i0 ↔
        ∃ t, ∃ h : t < vs.length, j = i0 + t ∧ (vs.get ⟨t, h⟩).Address ∉ newAddrs
  | [], i0, j => by simp [buildRemoved]
  | v :: vs, i0, j => by
      have ih := mem_buildRemoved_iff newAddrs vs (i0 + 1) j
      by_cases hc : v.Address ∈ newAddrs
      · rw [buildRemoved, if_pos (List.elem_iff.mpr hc), ih]
        constructor
        · rintro ⟨t, h, rfl, hna⟩
          exact ⟨t + 1, Nat.succ_lt_succ h, by omega, by simpa using hna⟩
        · rintro ⟨t, h, hj, hna⟩
          cases t with
          | zero => exact absurd hc (by simpa using hna)
          | succ u =>
              exact ⟨u, Nat.lt_of_succ_lt_succ h, by omega, by simpa using hna⟩
      · rw [buildRemoved, if_neg (fun hcc => hc (List.elem_iff.mp hcc)),
          List.mem_cons, ih]
        constructor
        · rintro (rfl | ⟨t, h, rfl, hna⟩)
          · exact ⟨0, Nat.succ_pos _, by omega, by simpa using hc⟩
          · exact ⟨t + 1, Nat.succ_lt_succ h, by omega, by simpa using hna⟩
        · rintro ⟨t, h, hj, hna⟩
          cases t with
          | zero => exact Or.inl (by omega)
          | succ u =>
              exact Or.inr ⟨u, Nat.lt_of_succ_lt_succ h, by omega, by simpa using hna⟩

theorem mem_buildRemoved_zero (newAddrs : List Address)
    (vs : List ValidatorMetadata) (i : Nat) :
    i ∈ buildRemoved newAddrs vs 0 ↔
      ∃ h : i < vs.length, (vs.get ⟨i, h⟩).Address ∉ newAddrs := by
  rw [mem_buildRemoved_iff]
  constructor
  · rintro ⟨t, ht, hj, hna⟩
    have hti : t = i := by omega
    subst hti
    exact ⟨ht, hna⟩
  · rintro ⟨hi, hna⟩
    exact ⟨i, hi, by omega, hna⟩

/-- C2: in the delta returned by `UpdateValidatorSet`, removed bit `i` is
set exactly when index `i` is a position of the previous ordered set whose
address is absent from the new active set's addresses. -/
theorem removed_bitmap_spec (oracle : Address → Option Nat)
    (s : ValidatorSetState) (old : List ValidatorMetadata) (k : Nat)
    (delta : ValidatorSetDelta)
    (h : UpdateValidatorSet oracle (some s) old k = some delta) (i : Nat) :
    i ∈ delta.Removed ↔
      ∃ hi : i < old.length, (old.get ⟨i, hi⟩).Address ∉
        (getSorted s.Validators k).map ValidatorMetadata.Address := by
  simp only [UpdateValidatorSet] at h
  cases hc : collectDelta oracle old (getSorted s.Validators k) with
  | none => rw [hc] at h; simp at h
  | some p =>
      rw [hc] at h
      simp only [Option.some_inj] at h
      subst h
      exact mem_buildRemoved_zero _ old i

/-- Witness for C2: with ledger `[valA]` and previous set `[valB]`, bit 0
is set because B's address left the active set. -/
theorem removed_bitmap_spec_witness :
    0 ∈ wDelta.Removed ↔
      ∃ hi : 0 < ([valB] : List ValidatorMetadata).length,
        (([valB] : List ValidatorMetadata).get ⟨0, hi⟩).Address ∉
          (getSorted ([valA] : ValidatorStakeMap) 1).map ValidatorMetadata.Address :=
  removed_bitmap_spec oracleW ⟨0, 0, 0, [valA]⟩ [valB] 1 wDelta (by decide) 0

theorem lookupOld_eq_none_iff (old : List ValidatorMetadata) (a : Address) :
    lookupOld old a = none ↔ ∀ w ∈ old, w.Address ≠ a := by
  unfold lookupOld
  rw [List.find?_eq_none]
  constructor
  · intro h w hw hc
    exact h w (List.mem_reverse.mpr hw) (by simp [hc])
  · intro h w hw
    simp only [beq_iff_eq]
    exact h w (List.mem_reverse.mp hw)

theorem collectDelta_none_of_missing : ∀ (newSet : List ValidatorMetadata)
    (oracle : Address → Option Nat) (old : List ValidatorMetadata),
    (∃ v ∈ newSet, lookupOld old v.Address = none ∧ v.BlsKey = none ∧
      oracle v.Address = none) →
    collectDelta oracle old newSet = none
  | [], _, _, h => by simp at h
  | v :: vs, oracle, old, h => by
      obtain ⟨u, hu, hl, hk, ho⟩ := h
      rcases List.mem_cons.mp hu with rfl | hu
      · rw [collectDelta, hl]
        simp only [resolveNew, hk, ho]
      · have ih := collectDelta_none_of_missing vs oracle old ⟨u, hu, hl, hk, ho⟩
        rw [collectDelta]
        cases hlv : lookupOld old v.Address with
        | some ov => rw [ih]
        | none =>
            cases hrv : resolveNew oracle v with
            | some v2 => rw [ih]
            | none => rfl

theorem resolveNew_isSome (oracle : Address → Option Nat)
    (v v2 : ValidatorMetadata) (h : resolveNew oracle v = some v2) :
    v2.BlsKey.isSome := by
  unfold resolveNew at h
  cases hk : v.BlsKey with
  | some k =>
      rw [hk] at h
      cases h
      rw [hk]
      rfl
  | none =>
      rw [hk] at h
      cases ho : oracle v.Address with
      | some k => rw [ho] at h; cases h; rfl
      | none => rw [ho] at h; simp at h

theorem collectDelta_added_keys : ∀ (newSet : List ValidatorMetadata)
    (oracle : Address → Option Nat) (old : List ValidatorMetadata)
    (p : List ValidatorMetadata × List ValidatorMetadata),
    collectDelta oracle old newSet = some p → ∀ v ∈ p.2, v.BlsKey.isSome
  | [], oracle, old, p, h => by
      cases h
      intro v hv
      simp at hv
  | u :: us, oracle, old, p, h => by
      rw [collectDelta] at h
      cases hlv : lookupOld old u.Address with
      | some ov =>
          rw [hlv] at h
          cases hrec : collectDelta oracle old us with
          | none => rw [hrec] at h; simp at h
          | some q =>
              rw [hrec] at h
              simp only [Option.some_inj] at h
              subst h
              intro v hv
              exact collectDelta_added_keys us oracle old q hrec v hv
      | none =>
          rw [hlv] at h
          cases hrv : resolveNew oracle u with
          | none => rw [hrv] at h; simp at h
          | some u2 =>
              rw [hrv] at h
              cases hrec : collectDelta oracle old us with
              | none => rw [hrec] at h; simp at h
              | some q =>
                  rw [hrec] at h
                  simp only [Option.some_inj] at h
                  subst h
                  intro v hv
                  rcases List.mem_cons.mp hv with rfl | hv
                  · exact resolveNew_isSome oracle u _ hrv
                  · exact collectDelta_added_keys us oracle old q hrec v hv

/-- C6: `UpdateValidatorSet` aborts with an error (and no delta) whenever
a validator that would be newly added has no stored signing key and the
root-chain lookup fails for it; consequently every added entry of a
returned delta carries a resolved BLS key. -/
theorem UpdateValidatorSet_added_keys :
    (∀ (oracle : Address → Option Nat) (s : ValidatorSetState)
      (old : List ValidatorMetadata) (k : Nat),
      (∃ v ∈ getSorted s.Validators k, (∀ w ∈ old, w.Address ≠ v.Address) ∧
        v.BlsKey = none ∧ oracle v.Address = none) →
      UpdateValidatorSet oracle (some s) old k = none) ∧
    (∀ (oracle : Address → Option Nat) (stored : Option ValidatorSetState)
      (old : List ValidatorMetadata) (k : Nat) (delta : ValidatorSetDelta),
      UpdateValidatorSet oracle stored old k = some delta →
      ∀ v ∈ delta.Added, v.BlsKey.isSome) := by
  constructor
  · intro oracle s old k h
    obtain ⟨v, hv, hold, hk, ho⟩ := h
    have hl : lookupOld old v.Address = none :=
      (lookupOld_eq_none_iff old v.Address).mpr hold
    have hnone := collectDelta_none_of_missing (getSorted s.Validators k)
      oracle old ⟨v, hv, hl, hk, ho⟩
    simp only [UpdateValidatorSet]
    rw [hnone]
  · intro oracle stored old k delta h v hv
    cases stored with
    | none => simp [UpdateValidatorSet] at h
    | some s =>
        simp only [UpdateValidatorSet] at h
        cases hc : collectDelta oracle old (getSorted s.Validators k) with
        | none => rw [hc] at h; simp at h
        | some p =>
            rw [hc] at h
            simp only [Option.some_inj] at h
            subst h
            exact collectDelta_added_keys _ oracle old p hc v hv

/-- Witness for C6: a staked key-less validator with a failing root-chain
oracle aborts the whole selection. -/
theorem UpdateValidatorSet_added_keys_witness :
    UpdateValidatorSet oracleFail (some ⟨0, 0, 0, [vNoKey]⟩) [] 1 = none :=
  UpdateValidatorSet_added_keys.1 oracleFail ⟨0, 0, 0, [vNoKey]⟩ [] 1
    ⟨vNoKey, by decide, by decide, rfl, rfl⟩

/-- C7: after a block's transfer events are applied, `PostBlock` resolves
each missing key through the root-chain oracle; a lookup failure leaves
the entry key-less and `PostBlock` still succeeds — the block is not
aborted. -/
theorem PostBlock_soft_key_failure (oracle : Address → Option Nat)
    (s : ValidatorSetState) (evs : List TransferEvent) (bn ep : Nat)
    (m : ValidatorStakeMap) (hne : evs.isEmpty = false)
    (ha : applyEvents s.Validators evs = some m) :
    ∃ s', PostBlock oracle (some s) evs bn ep = some s' ∧
      ∀ v ∈ m, ∃ w ∈ s'.Validators, w.Address = v.Address ∧
        w.BlsKey = (match v.BlsKey with
                    | some k => some k
                    | none => oracle v.Address) := by
  have hupd : updateWithReceipts oracle s evs =
      some { s with Validators := resolveKeysAndFlags oracle m,
                    UpdatedAtBlockNumber := s.BlockNumber } := by
    rw [updateWithReceipts, if_neg (by simp [hne]), ha]
  refine ⟨{ BlockNumber := bn, EpochID := ep,
            UpdatedAtBlockNumber := s.BlockNumber,
            Validators := resolveKeysAndFlags oracle m }, ?_, ?_⟩
  · simp only [PostBlock]
    rw [hupd]
  · intro v hv
    refine ⟨{ v with
        BlsKey := match v.BlsKey with
                  | some k => some k
                  | none => oracle v.Address,
        IsActive := decide (0 < v.VotingPower) }, ?_, rfl, rfl⟩
    unfold resolveKeysAndFlags
    exact List.mem_map_of_mem _ hv

/-- Witness for C7: a failing oracle on a block with one stake event on a
key-less validator still yields a successful `PostBlock`. -/
theorem PostBlock_soft_key_failure_witness :
    ∃ s', PostBlock oracleFail (some ⟨0, 0, 0, [vNoKey]⟩)
        [TransferEvent.stake [5] 1] 1 1 = some s' ∧
      ∀ v ∈ wM7, ∃ w ∈ s'.Validators, w.Address = v.Address ∧
        w.BlsKey = (match v.BlsKey with
                    | some k => some k
                    | none => oracleFail v.Address) :=
  PostBlock_soft_key_failure oracleFail ⟨0, 0, 0, [vNoKey]⟩
    [TransferEvent.stake [5] 1] 1 1 wM7 rfl (by decide)

end StakeStore

namespace CheckpointStore

/-- C9: every exit event produced in an epoch-ending block is stored under
the next epoch id with the first block number of the next epoch; in the
epoch-size-2 scenario, events originating in block 9 are recorded with
block number 10 under the epoch beginning at block 10. -/
theorem exit_events_epoch_ending_attribution :
    (∀ (ids : List Nat) (ep bn : Nat) (e : ExitEvent),
      e ∈ storeBlockExitEvents ids ep bn true →
      e.EpochNumber = ep + 1 ∧ e.BlockNumber = bn + 1) ∧
    storeBlockExitEvents [0] 4 9 true =
      [{ ID := 0, EpochNumber := 5, BlockNumber := 10 }] := by
  refine ⟨?_, by decide⟩
  intro ids ep bn e he
  unfold storeBlockExitEvents attributeExitEvent at he
  simp only [if_true, List.mem_map] at he
  obtain ⟨i, hi, rfl⟩ := he
  exact ⟨rfl, rfl⟩

/-- Witness for C9: the block-9 event of the scenario is filed under epoch
5, block 10. -/
theorem exit_events_epoch_ending_attribution_witness :
    ExitEvent.EpochNumber { ID := 0, EpochNumber := 5, BlockNumber := 10 } = 4 + 1 ∧
      ExitEvent.BlockNumber { ID := 0, EpochNumber := 5, BlockNumber := 10 } = 9 + 1 :=
  exit_events_epoch_ending_attribution.1 [0] 4 9
    { ID := 0, EpochNumber := 5, BlockNumber := 10 } (by decide)

end CheckpointStore

